import Mathlib

/-!
Verification of the core logic of `qt_gh-update-checker`
(header-only library `include/qt_gh-update-checker.hpp`).

The embedding translates the C++ source into executable Lean definitions:

* `SemVer.parse` embeds `qtgh::SemVer::parse`, which searches (unanchored)
  for the regex `v?(\d+)\.(\d+)(?:\.(\d+))?` in the input and converts the
  captured digit groups with `QString::toInt`.
* `SemVer.cmp` embeds the defaulted three-way comparison
  `operator<=>`, which compares members in declaration order
  (major, then minor, then patch).
* `toGithubApiUrl` embeds `qtgh::toGithubApiUrl`: a substring test for
  "api.github.com", an unanchored search for the regex
  `https://github\.com/([^/]+)/([^/]+)`, a `.git` suffix chop, and
  composition of the API endpoint.
* `extractTag` embeds the JSON-inspection part of
  `qtgh::check_github_update` (lines 195-208): the `QJsonDocument` value
  produced by the external Qt parser is modelled by `QJsonDocument`
  below, and the branch structure on `isObject`, `tag_name` and
  `message` is translated directly.
* `check_github_update` embeds `qtgh::check_github_update`, with the
  external collaborators (the HTTP transport `http_get` and the Qt JSON
  parser `QJsonDocument::fromJson`) abstracted as function parameters.

The distinct `std::runtime_error` messages thrown by the source are
modelled as the constructors of `CheckError`, following the error
taxonomy of the specification (InvalidRepositoryUrl, TransportError,
MalformedResponse, PlatformError, MissingTagField, InvalidVersionFormat).
-/

namespace Qtgh

/-- Error taxonomy of the checker.  Each constructor corresponds to one
distinct `std::runtime_error` thrown by the source:
`invalidVersionFormat v` is "Invalid SemVer: " + v,
`invalidRepositoryUrl u` is "Invalid GitHub URL: " + u,
`transportError m` is "Network error: " + m,
`malformedResponse` is "GitHub API returned non-object JSON",
`platformError m` is "GitHub API error: " + m,
`missingTagField` is "GitHub API returned no valid tag_name". -/
inductive CheckError where
  | invalidVersionFormat (input : String)
  | invalidRepositoryUrl (url : String)
  | transportError (msg : String)
  | malformedResponse
  | platformError (msg : String)
  | missingTagField
deriving DecidableEq, Repr

/-- `struct SemVer { int major = 0; int minor = 0; int patch = 0; }`.
Fields are C++ `int`; modelled as `Int` (all values produced by the
program are non-negative and in `int` range). -/
structure SemVer where
  major : Int := 0
  minor : Int := 0
  patch : Int := 0
deriving DecidableEq, Repr

/-- Maximal leading run of decimal digits of a character list, together
with the remainder (greedy `\d+`/`\d*` behaviour of the regex engine). -/
def takeDigits : List Char → List Char × List Char
  | [] => ([], [])
  | c :: cs =>
    if c.isDigit then
      let p := takeDigits cs
      (c :: p.1, p.2)
    else ([], c :: cs)

/-- Numeric value of a digit string, base 10 (leading zeros allowed). -/
def digitsVal (ds : List Char) : Nat :=
  ds.foldl (fun acc c => acc * 10 + (c.toNat - 48)) 0

/-- `QString::toInt` on a non-empty run of decimal digits: the base-10
value when it fits in a C++ `int`, `0` when the conversion overflows
(Qt documents that a failed conversion returns 0). -/
def qToInt (ds : List Char) : Int :=
  if digitsVal ds ≤ 2147483647 then (digitsVal ds : Int) else 0

/-- Attempt to match `(\d+)\.(\d+)(?:\.(\d+))?` at the head of the list,
returning the captured digit groups.  Greedy matching of each `\d+`
is exact here: a shorter first group would leave a digit (not `.`)
as the next character, so backtracking can never succeed where the
maximal-munch attempt failed. -/
def matchCore (cs : List Char) : Option (List Char × List Char × Option (List Char)) :=
  let p1 := takeDigits cs
  if p1.1 = [] then none
  else
    match p1.2 with
    | '.' :: r2 =>
      let p2 := takeDigits r2
      if p2.1 = [] then none
      else
        match p2.2 with
        | '.' :: r4 =>
          let p3 := takeDigits r4
          if p3.1 = [] then some (p1.1, p2.1, none) else some (p1.1, p2.1, some p3.1)
        | _ => some (p1.1, p2.1, none)
    | _ => none

/-- Unanchored search for `v?(\d+)\.(\d+)(?:\.(\d+))?`: try each start
position from the left (`QRegularExpression::match` scans the subject).
At a given position, if the character is `v` the optional `v` must be
taken (dropping it leaves `\d+` to match at a non-digit, which fails). -/
def findVer : List Char → Option (List Char × List Char × Option (List Char))
  | [] => none
  | c :: cs =>
    match (if c = 'v' then matchCore cs else matchCore (c :: cs)) with
    | some r => some r
    | none => findVer cs

/-- `SemVer::parse`: search the input for the version pattern; on failure
throw "Invalid SemVer: " + v; otherwise convert the captured groups with
`toInt`, the absent third group defaulting to 0. -/
def SemVer.parse (v : String) : Except CheckError SemVer :=
  match findVer v.data with
  | none => .error (.invalidVersionFormat v)
  | some (d1, d2, od3) =>
    .ok { major := qToInt d1, minor := qToInt d2,
          patch := match od3 with | none => 0 | some d3 => qToInt d3 }

/-- Three-way comparison of C++ `int`. -/
def cmpInt (x y : Int) : Ordering :=
  if x < y then .lt else if x = y then .eq else .gt

/-- The defaulted `operator<=>` of `SemVer`: lexicographic member-wise
comparison in declaration order (major, minor, patch). -/
def SemVer.cmp (a b : SemVer) : Ordering :=
  match cmpInt a.major b.major with
  | .eq =>
    match cmpInt a.minor b.minor with
    | .eq => cmpInt a.patch b.patch
    | o => o
  | o => o

/-- `a < b` derived from `operator<=>`. -/
def SemVer.ltB (a b : SemVer) : Bool := SemVer.cmp a b == .lt

/-- `a > b` derived from `operator<=>`. -/
def SemVer.gtB (a b : SemVer) : Bool := SemVer.cmp a b == .gt

/-- Does `sub` occur as the initial segment of `s`? -/
def startsWithL : List Char → List Char → Bool
  | [], _ => true
  | _ :: _, [] => false
  | a :: as, b :: bs => a = b && startsWithL as bs

/-- Substring containment (`QString::contains`, case sensitive by
default): `sub` occurs somewhere in the list. -/
def hasSub (sub : List Char) : List Char → Bool
  | [] => sub.isEmpty
  | c :: cs => startsWithL sub (c :: cs) || hasSub sub cs

/-- Strip the literal `lit` from the front of `s`, if present. -/
def stripLit : List Char → List Char → Option (List Char)
  | [], s => some s
  | _ :: _, [] => none
  | a :: as, b :: bs => if a = b then stripLit as bs else none

/-- Maximal leading run of characters other than `/` (greedy `[^/]+`),
with the remainder. -/
def takeNonSlash : List Char → List Char × List Char
  | [] => ([], [])
  | c :: cs =>
    if c = '/' then ([], c :: cs)
    else
      let p := takeNonSlash cs
      (c :: p.1, p.2)

/-- The literal part of the URL regex `https://github\.com/([^/]+)/([^/]+)`. -/
def ghLit : List Char := "https://github.com/".data

/-- Attempt to match `https://github\.com/([^/]+)/([^/]+)` at the head of
the list, returning the two captures (owner, repo).  Greedy matching of
`[^/]+` is exact: a shorter owner capture leaves a non-`/` character
where the literal `/` is required. -/
def matchGH (cs : List Char) : Option (List Char × List Char) :=
  match stripLit ghLit cs with
  | none => none
  | some r1 =>
    let p1 := takeNonSlash r1
    if p1.1 = [] then none
    else
      match p1.2 with
      | '/' :: r2 =>
        let p2 := takeNonSlash r2
        if p2.1 = [] then none else some (p1.1, p2.1)
      | _ => none

/-- Unanchored search for the URL pattern: `QRegularExpression::match`
scans the subject, trying every start position from the left. -/
def findGH : List Char → Option (List Char × List Char)
  | [] => none
  | c :: cs =>
    match matchGH (c :: cs) with
    | some r => some r
    | none => findGH cs

/-- `QString::endsWith(".git")`. -/
def endsWithGit (r : List Char) : Bool :=
  match r.reverse with
  | 't' :: 'i' :: 'g' :: '.' :: _ => true
  | _ => false

/-- `qtgh::toGithubApiUrl`: if the URL contains "api.github.com" return
it unchanged; otherwise search for the web-URL pattern (failure throws
"Invalid GitHub URL: " + url), chop a trailing ".git" from the repo
capture, and compose the endpoint. -/
def toGithubApiUrl (url : String) : Except CheckError String :=
  if hasSub "api.github.com".data url.data then .ok url
  else
    match findGH url.data with
    | none => .error (.invalidRepositoryUrl url)
    | some (owner, repo) =>
      let repo2 := if endsWithGit repo then repo.take (repo.length - 4) else repo
      .ok (String.mk ("https://api.github.com/repos/".data ++ owner
            ++ '/' :: repo2 ++ "/releases/latest".data))

/-- A JSON value as `QJsonValue` represents it. -/
inductive QJsonValue where
  | vnull
  | vbool (b : Bool)
  | vnum (x : Int)
  | vstr (s : String)
  | varr (n : Nat)
  | vobj (n : Nat)
deriving DecidableEq, Repr

/-- A `QJsonObject`, keys with values (key lookup finds the first
binding; `QJsonObject` keys are unique). -/
def QJsonObject := List (String × QJsonValue)

/-- `obj.contains(key) && obj[key]` combined: the value at `key`, if any. -/
def jsonLookup (fields : QJsonObject) (key : String) : Option QJsonValue :=
  (fields.find? (fun p => p.1 = key)).map Prod.snd

/-- Result of `QJsonDocument::fromJson` on a byte sequence, classified
the way the source inspects it: `invalid` (parse error — `isObject()`
false), a top-level array, or a top-level object. -/
inductive QJsonDocument where
  | invalid
  | arrayDoc (n : Nat)
  | objectDoc (fields : QJsonObject)

/-- The JSON-inspection steps of `check_github_update` (source lines
195-210): require a top-level object, require a string-typed
`tag_name` (returned as-is), otherwise surface a string-typed
`message` as a platform error, otherwise fail with the
missing-tag error. -/
def extractTag : QJsonDocument → Except CheckError String
  | .invalid => .error .malformedResponse
  | .arrayDoc _ => .error .malformedResponse
  | .objectDoc fields =>
    match jsonLookup fields "tag_name" with
    | some (.vstr s) => .ok s
    | _ =>
      match jsonLookup fields "message" with
      | some (.vstr m) => .error (.platformError m)
      | _ => .error .missingTagField

/-- Raw HTTP response body (`QByteArray`), opaque to the core logic. -/
def QByteArray := List Nat

/-- `struct UpdateInfo { bool hasUpdate; QString latestVersion; }`. -/
structure UpdateInfo where
  hasUpdate : Bool
  latestVersion : String
deriving DecidableEq, Repr

/-- `qtgh::check_github_update`.  The two external collaborators are
parameters: `fetch` models `http_get` (returns the body or throws
"Network error: " + message) and `fromJson` models the Qt JSON parser
`QJsonDocument::fromJson`.  The repository's own steps are translated
in source order: resolve the URL, fetch, parse/inspect the JSON,
parse the local version, parse the remote tag, compare with
`remote > local`, and return `{ remote > local, latest }`. -/
def check_github_update (fetch : String → Except String QByteArray)
    (fromJson : QByteArray → QJsonDocument)
    (repoUrl localVersion : String) : Except CheckError UpdateInfo :=
  match toGithubApiUrl repoUrl with
  | .error e => .error e
  | .ok apiUrl =>
    match fetch apiUrl with
    | .error msg => .error (.transportError msg)
    | .ok data =>
      match extractTag (fromJson data) with
      | .error e => .error e
      | .ok latest =>
        match SemVer.parse localVersion with
        | .error e => .error e
        | .ok lv =>
          match SemVer.parse latest with
          | .error e => .error e
          | .ok rv => .ok { hasUpdate := SemVer.gtB rv lv, latestVersion := latest }

/-- Spec-side ordering (written from the specification's words, to be
compared with the source-derived `SemVer.cmp`): "compare major, then
minor, then patch, numerically, with strict lexicographic precedence". -/
def tupleLtSpec (a b : Int × Int × Int) : Prop :=
  a.1 < b.1 ∨ (a.1 = b.1 ∧ (a.2.1 < b.2.1 ∨ (a.2.1 = b.2.1 ∧ a.2.2 < b.2.2)))

lemma cmpInt_cases (x y : Int) :
    (cmpInt x y = .lt ∧ x < y) ∨ (cmpInt x y = .eq ∧ x = y) ∨ (cmpInt x y = .gt ∧ y < x) := by
  unfold cmpInt; split_ifs <;> simp_all <;> omega

lemma cmp_lemma (a b : SemVer) :
    SemVer.cmp a b = .lt ↔
      (a.major < b.major ∨ (a.major = b.major ∧ (a.minor < b.minor ∨
        (a.minor = b.minor ∧ a.patch < b.patch)))) := by
  have c1 := cmpInt_cases a.major b.major
  have c2 := cmpInt_cases a.minor b.minor
  have c3 := cmpInt_cases a.patch b.patch
  unfold SemVer.cmp
  rcases c1 with ⟨h1, p1⟩ | ⟨h1, p1⟩ | ⟨h1, p1⟩ <;>
    rcases c2 with ⟨h2, p2⟩ | ⟨h2, p2⟩ | ⟨h2, p2⟩ <;>
      rcases c3 with ⟨h3, p3⟩ | ⟨h3, p3⟩ | ⟨h3, p3⟩ <;>
        rw [h1, h2, h3] <;>
        refine Iff.intro (fun hh => ?_) (fun hh => ?_) <;> first
          | omega
          | (exact absurd hh (by decide))
          | (exact absurd hh (by omega))
          | rfl

lemma eq_iff_fields (a b : SemVer) :
    a = b ↔ a.major = b.major ∧ a.minor = b.minor ∧ a.patch = b.patch := by
  cases a; cases b; simp [SemVer.mk.injEq]

lemma beq_lt_iff (o : Ordering) : (o == Ordering.lt) = true ↔ o = Ordering.lt := by
  cases o <;> decide

lemma beq_lt_false_iff (o : Ordering) : (o == Ordering.lt) = false ↔ ¬ o = Ordering.lt := by
  cases o <;> decide

/-- C3: the comparison on `SemVer` values (the defaulted `operator<=>`)
is a strict total order identical to lexicographic tuple comparison on
(major, minor, patch): it agrees with the spec-side tuple ordering,
exactly one of `a < b`, `a = b`, `b < a` holds, it is transitive, and
equality is component-wise.  Major differences dominate minor and patch
and minor dominates patch, by the shape of `tupleLtSpec`. -/
theorem C3_semver_strict_total_order (a b c : SemVer) :
    (SemVer.ltB a b = true ↔
       tupleLtSpec (a.major, a.minor, a.patch) (b.major, b.minor, b.patch)) ∧
    (SemVer.ltB a b = true ∨ a = b ∨ SemVer.ltB b a = true) ∧
    (SemVer.ltB a b = true → a ≠ b ∧ SemVer.ltB b a = false) ∧
    (a = b → SemVer.ltB a b = false ∧ SemVer.ltB b a = false) ∧
    (SemVer.ltB a b = true → SemVer.ltB b c = true → SemVer.ltB a c = true) ∧
    (a = b ↔ a.major = b.major ∧ a.minor = b.minor ∧ a.patch = b.patch) := by
  have eab := eq_iff_fields a b
  have l1 := cmp_lemma a b
  have l2 := cmp_lemma b a
  have l3 := cmp_lemma a c
  have l4 := cmp_lemma b c
  simp only [SemVer.ltB, beq_lt_iff, beq_lt_false_iff]
  refine ⟨?_, ?_, ?_, ?_, ?_, eab⟩
  · rw [l1]; simp only [tupleLtSpec]
  · rw [l1, l2, eab]; omega
  · rw [l1]; intro h
    constructor
    · rw [Ne, eab]; omega
    · rw [l2]; omega
  · rw [eab, l1, l2]; omega
  · rw [l1, l3, l4]; omega

/-- Witness for `C3_semver_strict_total_order` at the spec's examples
`{1,9,9} < {2,0,0}` and the transitivity chain `{1,2,3} < {1,2,4} < {2,0,0}`. -/
theorem C3_semver_strict_total_order_witness :
    SemVer.ltB ⟨1, 2, 3⟩ ⟨1, 2, 4⟩ = true ∧ SemVer.ltB ⟨1, 2, 4⟩ ⟨2, 0, 0⟩ = true ∧
      SemVer.ltB ⟨1, 2, 3⟩ ⟨2, 0, 0⟩ = true :=
  ⟨by decide, by decide,
    (C3_semver_strict_total_order ⟨1, 2, 3⟩ ⟨1, 2, 4⟩ ⟨2, 0, 0⟩).2.2.2.2.1
      (by decide) (by decide)⟩

lemma startsWithL_append {sub s : List Char} (t : List Char)
    (h : startsWithL sub s = true) : startsWithL sub (s ++ t) = true := by
  induction sub generalizing s with
  | nil => simp [startsWithL]
  | cons a as ih =>
    cases s with
    | nil => simp [startsWithL] at h
    | cons b bs =>
      simp only [startsWithL, Bool.and_eq_true, decide_eq_true_eq, List.cons_append] at h ⊢
      exact ⟨h.1, ih h.2⟩

lemma hasSub_of_startsWithL {sub s : List Char} (h : startsWithL sub s = true) :
    hasSub sub s = true := by
  cases s with
  | nil =>
    cases sub with
    | nil => rfl
    | cons a as => simp [startsWithL] at h
  | cons c cs => simp only [hasSub, Bool.or_eq_true]; exact Or.inl h

lemma hasSub_append_left {sub s : List Char} (t : List Char)
    (h : hasSub sub s = true) : hasSub sub (s ++ t) = true := by
  induction s with
  | nil =>
    simp only [hasSub, List.isEmpty_iff] at h
    subst h
    cases t with
    | nil => rfl
    | cons c cs => simp [hasSub, startsWithL]
  | cons c cs ih =>
    simp only [hasSub, Bool.or_eq_true] at h
    rcases h with h | h
    · simpa only [List.cons_append, hasSub, Bool.or_eq_true] using
        Or.inl (startsWithL_append t h)
    · simpa only [List.cons_append, hasSub, Bool.or_eq_true] using Or.inr (ih h)

lemma stripLit_self (lit s : List Char) : stripLit lit (lit ++ s) = some s := by
  induction lit with
  | nil => rfl
  | cons a as ih => simp [stripLit, ih]

lemma stripLit_sound {lit s r : List Char} (h : stripLit lit s = some r) :
    s = lit ++ r := by
  induction lit generalizing s with
  | nil =>
    simp only [stripLit, Option.some.injEq] at h
    simpa using h
  | cons a as ih =>
    cases s with
    | nil => simp [stripLit] at h
    | cons b bs =>
      simp only [stripLit] at h
      split_ifs at h with hab
      subst hab
      simpa using ih h

lemma takeNonSlash_spec (l : List Char) :
    l = (takeNonSlash l).1 ++ (takeNonSlash l).2 ∧ '/' ∉ (takeNonSlash l).1 := by
  induction l with
  | nil => simp [takeNonSlash]
  | cons c cs ih =>
    by_cases hc : c = '/'
    · subst hc; simp [takeNonSlash]
    · simp only [takeNonSlash, if_neg hc]
      refine ⟨by simpa using ih.1, ?_⟩
      simp only [List.mem_cons, not_or]
      exact ⟨fun hcc => hc hcc.symm, ih.2⟩

lemma takeNonSlash_append {o : List Char} (ho : '/' ∉ o) (X : List Char) :
    takeNonSlash (o ++ '/' :: X) = (o, '/' :: X) := by
  induction o with
  | nil => simp [takeNonSlash]
  | cons c cs ih =>
    simp only [List.mem_cons, not_or] at ho
    have hc : ¬ c = '/' := fun h => ho.1 h.symm
    simp [takeNonSlash, hc, ih ho.2]

lemma takeNonSlash_all {o : List Char} (ho : '/' ∉ o) : takeNonSlash o = (o, []) := by
  induction o with
  | nil => rfl
  | cons c cs ih =>
    simp only [List.mem_cons, not_or] at ho
    have hc : ¬ c = '/' := fun h => ho.1 h.symm
    simp [takeNonSlash, hc, ih ho.2]

lemma takeNonSlash_fst_ne_nil {c : Char} (hc : c ≠ '/') (cs : List Char) :
    (takeNonSlash (c :: cs)).1 ≠ [] := by
  simp [takeNonSlash, if_neg hc]

/-- Spec-side occurrence predicate: the web-URL pattern
`https://github\.com/([^/]+)/([^/]+)` matches somewhere in the list. -/
def ghOccurs (l : List Char) : Prop :=
  ∃ pre o c rest, l = pre ++ (ghLit ++ (o ++ ('/' :: c :: rest))) ∧
    o ≠ [] ∧ '/' ∉ o ∧ c ≠ '/'

lemma takeNonSlash_snd_head {l r2 : List Char} {c2 : Char}
    (h : (takeNonSlash l).2 = c2 :: r2) : c2 = '/' := by
  induction l with
  | nil => simp [takeNonSlash] at h
  | cons d ds ih =>
    by_cases hd : d = '/'
    · subst hd
      simp [takeNonSlash] at h
      exact h.1.symm
    · simp only [takeNonSlash, if_neg hd] at h
      exact ih h

lemma matchGH_some_occurs {l : List Char} {r : List Char × List Char}
    (h : matchGH l = some r) :
    ∃ o c rest, l = ghLit ++ (o ++ ('/' :: c :: rest)) ∧ o ≠ [] ∧ '/' ∉ o ∧ c ≠ '/' := by
  unfold matchGH at h
  cases hs : stripLit ghLit l with
  | none => rw [hs] at h; simp at h
  | some r1 =>
    rw [hs] at h
    simp only at h
    by_cases h2 : (takeNonSlash r1).1 = []
    · rw [if_pos h2] at h; simp at h
    · rw [if_neg h2] at h
      cases hp : (takeNonSlash r1).2 with
      | nil => rw [hp] at h; simp at h
      | cons c2 r2 =>
        have hc2 : c2 = '/' := takeNonSlash_snd_head hp
        subst hc2
        rw [hp] at h
        simp only at h
        by_cases h3 : (takeNonSlash r2).1 = []
        · rw [if_pos h3] at h; simp at h
        · cases hr2 : r2 with
          | nil =>
            rw [hr2] at h3
            simp [takeNonSlash] at h3
          | cons c rest =>
            have hcs : c ≠ '/' := by
              intro hcc
              rw [hr2] at h3
              simp [takeNonSlash, hcc] at h3
            refine ⟨(takeNonSlash r1).1, c, rest, ?_, h2, (takeNonSlash_spec r1).2, hcs⟩
            have hdec := (takeNonSlash_spec r1).1
            rw [hp, hr2] at hdec
            rw [stripLit_sound hs]
            exact congrArg (fun x => ghLit ++ x) hdec

lemma matchGH_of_shape {o : List Char} (ho : o ≠ []) (hos : '/' ∉ o) {c : Char}
    (hc : c ≠ '/') (rest : List Char) :
    matchGH (ghLit ++ (o ++ ('/' :: c :: rest))) = some (o, (takeNonSlash (c :: rest)).1) := by
  unfold matchGH
  rw [stripLit_self]
  have h1 := takeNonSlash_fst_ne_nil hc rest
  cases hq : takeNonSlash (c :: rest) with
  | mk q1 q2 =>
    rw [hq] at h1
    simp [takeNonSlash_append hos, ho, hq, h1]

lemma findGH_cons (d : Char) (ds : List Char) :
    findGH (d :: ds) = match matchGH (d :: ds) with
      | some r => some r
      | none => findGH ds := rfl

lemma findGH_isSome_iff (l : List Char) : (findGH l).isSome = true ↔ ghOccurs l := by
  induction l with
  | nil =>
    simp only [findGH, Option.isSome_none, Bool.false_eq_true, false_iff, ghOccurs]
    rintro ⟨pre, o, c, rest, habs, -⟩
    have hlen := congrArg List.length habs
    simp [ghLit] at hlen
    omega
  | cons d ds ih =>
    constructor
    · intro h
      rw [findGH_cons] at h
      cases hm : matchGH (d :: ds) with
      | some r =>
        obtain ⟨o, c, rest, he, ho, hos, hc⟩ := matchGH_some_occurs hm
        exact ⟨[], o, c, rest, by simpa using he, ho, hos, hc⟩
      | none =>
        rw [hm] at h
        simp only at h
        obtain ⟨pre, o, c, rest, he, ho, hos, hc⟩ := ih.mp h
        exact ⟨d :: pre, o, c, rest, by simp [he], ho, hos, hc⟩
    · rintro ⟨pre, o, c, rest, he, ho, hos, hc⟩
      rw [findGH_cons]
      cases pre with
      | nil =>
        simp only [List.nil_append] at he
        rw [he, matchGH_of_shape ho hos hc rest]
        simp
      | cons d2 pre2 =>
        have he2 : ds = pre2 ++ (ghLit ++ (o ++ ('/' :: c :: rest))) := by
          have := he
          simp only [List.cons_append] at this
          injection this with h1 h2
        have hds := ih.mpr ⟨pre2, o, c, rest, he2, ho, hos, hc⟩
        cases hmm : matchGH (d :: ds) with
        | none => simpa using hds
        | some r => simp


lemma findGH_of_match {l : List Char} {r : List Char × List Char}
    (hl : l ≠ []) (hm : matchGH l = some r) : findGH l = some r := by
  cases l with
  | nil => exact absurd rfl hl
  | cons d ds => rw [findGH_cons, hm]

lemma hasSub_marker_endpoint (o rp : List Char) :
    hasSub "api.github.com".data
      ("https://api.github.com/repos/".data ++ o ++ '/' :: rp
        ++ "/releases/latest".data) = true := by
  have h0 : hasSub "api.github.com".data "https://api.github.com/repos/".data = true := by
    decide
  have h1 := hasSub_append_left
    (o ++ '/' :: rp ++ "/releases/latest".data) h0
  simpa [List.append_assoc] using h1

lemma endsWithGit_append (r : List Char) : endsWithGit (r ++ ".git".data) = true := by
  have hrev : (r ++ ".git".data).reverse = 't' :: 'i' :: 'g' :: '.' :: r.reverse := by
    simp
  unfold endsWithGit
  rw [hrev]
  rfl

lemma chop_git (r : List Char) :
    (r ++ ".git".data).take ((r ++ ".git".data).length - 4) = r := by
  have hlen : (r ++ ".git".data).length - 4 = r.length := by simp
  rw [hlen]
  simpa using List.take_left r ".git".data

/-- C10: the API-form short-circuit is plain substring containment:
any URL containing "api.github.com" anywhere is returned unchanged,
never matched against the web pattern, never `.git`-stripped, and
never rejected. -/
theorem C10_api_marker_short_circuit (url : String)
    (h : hasSub "api.github.com".data url.data = true) :
    toGithubApiUrl url = .ok url := by
  unfold toGithubApiUrl
  rw [if_pos h]

/-- Witness for `C10_api_marker_short_circuit`: a github.com web URL
whose repo segment merely embeds "api.github.com" is returned unchanged. -/
theorem C10_api_marker_short_circuit_witness :
    hasSub "api.github.com".data "https://github.com/owner/api.github.com".data = true ∧
      toGithubApiUrl "https://github.com/owner/api.github.com" =
        .ok "https://github.com/owner/api.github.com" :=
  ⟨by decide, C10_api_marker_short_circuit "https://github.com/owner/api.github.com" (by decide)⟩

/-- C6: `toGithubApiUrl` is idempotent: a URL containing the API host
marker is returned unchanged, and any successful result resolves to
itself. -/
theorem C6_resolve_idempotent (url u r : String)
    (hm : hasSub "api.github.com".data url.data = true)
    (hu : toGithubApiUrl u = .ok r) :
    toGithubApiUrl url = .ok url ∧ toGithubApiUrl r = .ok r := by
  constructor
  · unfold toGithubApiUrl
    rw [if_pos hm]
  · unfold toGithubApiUrl at hu
    by_cases hc : hasSub "api.github.com".data u.data = true
    · rw [if_pos hc] at hu
      have : u = r := by
        injection hu
      subst this
      unfold toGithubApiUrl
      rw [if_pos hc]
    · rw [if_neg hc] at hu
      cases hg : findGH u.data with
      | none => rw [hg] at hu; exact absurd hu (by simp)
      | some pr =>
        rw [hg] at hu
        cases pr with
        | mk o rp =>
          simp only at hu
          have hr : r = String.mk ("https://api.github.com/repos/".data ++ o
              ++ '/' :: (if endsWithGit rp then rp.take (rp.length - 4) else rp)
              ++ "/releases/latest".data) := by
            injection hu with hu2
            exact hu2.symm
          have hmr : hasSub "api.github.com".data r.data = true := by
            rw [hr]
            exact hasSub_marker_endpoint o _
          unfold toGithubApiUrl
          rw [if_pos hmr]

/-- Witness for `C6_resolve_idempotent` at the spec's example: the
canonical API URL resolves to itself, and resolving a web URL twice
equals resolving it once. -/
theorem C6_resolve_idempotent_witness :
    toGithubApiUrl "https://api.github.com/repos/x/y/releases/latest" =
        .ok "https://api.github.com/repos/x/y/releases/latest" ∧
      toGithubApiUrl "https://api.github.com/repos/owner/repo/releases/latest" =
        .ok "https://api.github.com/repos/owner/repo/releases/latest" :=
  ⟨(C6_resolve_idempotent "https://api.github.com/repos/x/y/releases/latest"
      "https://github.com/owner/repo" "https://api.github.com/repos/owner/repo/releases/latest"
      (by decide) (by rfl)).1,
    (C6_resolve_idempotent "https://api.github.com/repos/x/y/releases/latest"
      "https://github.com/owner/repo" "https://api.github.com/repos/owner/repo/releases/latest"
      (by decide) (by rfl)).2⟩



/-- C5 counterexample: a URL exactly of the web form
`https://github.com/<owner>/<repo>` whose owner segment is the string
"api.github.com" trips the containment short-circuit and is returned
unchanged instead of being resolved to the canonical endpoint, so the
claim's universal statement fails. -/
theorem C5_counterexample :
    toGithubApiUrl "https://github.com/api.github.com/json" =
        .ok "https://github.com/api.github.com/json" ∧
      ("https://github.com/api.github.com/json" : String) ≠
        "https://api.github.com/repos/api.github.com/json/releases/latest" := by
  exact ⟨by rfl, by decide⟩

/-- C5 (amended): for every web URL `https://github.com/<owner>/<repo>`
(owner and repo nonempty, `/`-free) that does not contain the substring
"api.github.com", resolution returns the canonical endpoint
`https://api.github.com/repos/<owner>/<repo>/releases/latest`; a `.git`
suffix on repo is stripped first, so the `.git` and non-`.git` forms
resolve to the same endpoint; and "not a url" fails with
InvalidRepositoryUrl. -/
theorem C5_web_url_resolution (owner repo : List Char)
    (ho : owner ≠ []) (hos : '/' ∉ owner)
    (hr : repo ≠ []) (hrs : '/' ∉ repo)
    (hng : endsWithGit repo = false)
    (hm1 : hasSub "api.github.com".data (ghLit ++ (owner ++ ('/' :: repo))) = false)
    (hm2 : hasSub "api.github.com".data
      (ghLit ++ (owner ++ ('/' :: (repo ++ ".git".data)))) = false) :
    toGithubApiUrl (String.mk (ghLit ++ (owner ++ ('/' :: repo)))) =
        .ok (String.mk ("https://api.github.com/repos/".data ++ owner
          ++ '/' :: repo ++ "/releases/latest".data)) ∧
      toGithubApiUrl (String.mk (ghLit ++ (owner ++ ('/' :: (repo ++ ".git".data))))) =
        toGithubApiUrl (String.mk (ghLit ++ (owner ++ ('/' :: repo)))) ∧
      toGithubApiUrl "not a url" = .error (.invalidRepositoryUrl "not a url") := by
  have hlit : ∀ X : List Char, ghLit ++ X ≠ [] := by
    intro X hX
    have := congrArg List.length hX
    simp [ghLit] at this
  have main : ∀ rp : List Char, rp ≠ [] → '/' ∉ rp →
      hasSub "api.github.com".data (ghLit ++ (owner ++ ('/' :: rp))) = false →
      toGithubApiUrl (String.mk (ghLit ++ (owner ++ ('/' :: rp)))) =
        .ok (String.mk ("https://api.github.com/repos/".data ++ owner
          ++ '/' :: (if endsWithGit rp then rp.take (rp.length - 4) else rp)
          ++ "/releases/latest".data)) := by
    intro rp hrp hrps hmrp
    cases hcase : rp with
    | nil => exact absurd hcase hrp
    | cons c rest =>
      subst hcase
      have hc : c ≠ '/' := by
        intro hcc
        exact hrps (by simp [hcc])
      have hfind : findGH (ghLit ++ (owner ++ ('/' :: c :: rest))) =
          some (owner, c :: rest) := by
        have hshape := matchGH_of_shape ho hos hc rest
        rw [takeNonSlash_all hrps] at hshape
        exact findGH_of_match (hlit _) hshape
      unfold toGithubApiUrl
      rw [if_neg (by simp [hmrp])]
      simp only [String.data]
      rw [hfind]
  refine ⟨?_, ?_, by rfl⟩
  · have h1 := main repo hr hrs hm1
    rw [hng] at h1
    simpa using h1
  · have h1 := main repo hr hrs hm1
    rw [hng] at h1
    have hr2 : repo ++ ".git".data ≠ [] := by
      intro hX
      have := congrArg List.length hX
      simp at this
    have hrs2 : '/' ∉ repo ++ ".git".data := by
      simp only [List.mem_append, not_or]
      refine ⟨hrs, by decide⟩
    have h2 := main (repo ++ ".git".data) hr2 hrs2 hm2
    rw [endsWithGit_append, if_pos rfl, chop_git] at h2
    rw [h1, h2]
    simp

/-- Witness for `C5_web_url_resolution` at owner = "owner",
repo = "repo". -/
theorem C5_web_url_resolution_witness :
    toGithubApiUrl (String.mk (ghLit ++ ("owner".data ++ ('/' :: "repo".data)))) =
        .ok (String.mk ("https://api.github.com/repos/".data ++ "owner".data
          ++ '/' :: "repo".data ++ "/releases/latest".data)) ∧
      toGithubApiUrl (String.mk (ghLit ++ ("owner".data ++ ('/' :: ("repo".data ++ ".git".data))))) =
        toGithubApiUrl (String.mk (ghLit ++ ("owner".data ++ ('/' :: "repo".data)))) :=
  ⟨(C5_web_url_resolution "owner".data "repo".data (by decide) (by decide) (by decide)
      (by decide) (by decide) (by decide) (by decide)).1,
    (C5_web_url_resolution "owner".data "repo".data (by decide) (by decide) (by decide)
      (by decide) (by decide) (by decide) (by decide)).2.1⟩

/-- C9 counterexample: URL matching is NOT anchored to the start of the
input: a string that does not begin with the web pattern (and has no
API marker) still resolves successfully when the pattern occurs
embedded later, instead of failing with InvalidRepositoryUrl. -/
theorem C9_counterexample :
    startsWithL "https://github.com/".data "see https://github.com/owner/repo".data = false ∧
      hasSub "api.github.com".data "see https://github.com/owner/repo".data = false ∧
      toGithubApiUrl "see https://github.com/owner/repo" =
        .ok "https://api.github.com/repos/owner/repo/releases/latest" :=
  ⟨by decide, by decide, by rfl⟩

/-- C9 (amended): URL matching is an unanchored search: for every URL
without the API host marker, resolution fails with InvalidRepositoryUrl
exactly when the web-URL pattern occurs nowhere in the string. -/
theorem C9_unanchored_url_matching (url : String)
    (h : hasSub "api.github.com".data url.data = false) :
    toGithubApiUrl url = .error (.invalidRepositoryUrl url) ↔ ¬ ghOccurs url.data := by
  unfold toGithubApiUrl
  rw [if_neg (by simp [h])]
  rw [← findGH_isSome_iff]
  cases hg : findGH url.data with
  | none => simp
  | some pr => cases pr; simp

/-- Witness for `C9_unanchored_url_matching`: the pattern occurs nowhere
in "not a url". -/
theorem C9_unanchored_url_matching_witness : ¬ ghOccurs "not a url".data :=
  (C9_unanchored_url_matching "not a url" (by decide)).mp (by rfl)



lemma platform_match_missing (q2 : Option QJsonValue)
    (hq2 : ∀ t, q2 ≠ some (.vstr t)) :
    (match q2 with
      | some (.vstr m2) => Except.error (CheckError.platformError m2)
      | _ => Except.error CheckError.missingTagField) =
      (Except.error CheckError.missingTagField : Except CheckError String) := by
  cases q2 with
  | none => rfl
  | some v =>
    cases v with
    | vstr t => exact absurd rfl (hq2 t)
    | vnull => rfl
    | vbool b => rfl
    | vnum x => rfl
    | varr n => rfl
    | vobj n => rfl

/-- C2: the extraction step's error taxonomy and its precedence, exactly
as the source branches: a non-object document fails MalformedResponse;
an object with a string-typed `tag_name` yields that string unchanged;
otherwise a string-typed `message` fails PlatformError with that
message; otherwise MissingTagField. -/
theorem C2_extract_error_taxonomy (doc : QJsonDocument)
    (fields : QJsonObject) (s m : String) :
    ((∀ fs, doc ≠ .objectDoc fs) → extractTag doc = .error .malformedResponse) ∧
    (jsonLookup fields "tag_name" = some (.vstr s) →
      extractTag (.objectDoc fields) = .ok s) ∧
    ((∀ t, jsonLookup fields "tag_name" ≠ some (.vstr t)) →
      jsonLookup fields "message" = some (.vstr m) →
      extractTag (.objectDoc fields) = .error (.platformError m)) ∧
    ((∀ t, jsonLookup fields "tag_name" ≠ some (.vstr t)) →
      (∀ t, jsonLookup fields "message" ≠ some (.vstr t)) →
      extractTag (.objectDoc fields) = .error .missingTagField) := by
  refine ⟨?_, ?_, ?_, ?_⟩
  · intro hno
    cases doc with
    | invalid => rfl
    | arrayDoc n => rfl
    | objectDoc fs => exact absurd rfl (hno fs)
  · intro ht
    simp only [extractTag]
    rw [ht]
  · intro hnt hm
    simp only [extractTag]
    cases hl : jsonLookup fields "tag_name" with
    | none => rw [hm]
    | some v =>
      cases v with
      | vstr t => exact absurd hl (hnt t)
      | vnull => rw [hm]
      | vbool b => rw [hm]
      | vnum x => rw [hm]
      | varr n => rw [hm]
      | vobj n => rw [hm]
  · intro hnt hnm
    simp only [extractTag]

/-- Witness for `C2_extract_error_taxonomy` at the specification's four
examples. -/
theorem C2_extract_error_taxonomy_witness :
    extractTag (.objectDoc [("tag_name", .vstr "v2.0.0")]) = .ok "v2.0.0" ∧
      extractTag (.objectDoc [("message", .vstr "Not Found")]) =
        .error (.platformError "Not Found") ∧
      extractTag (.objectDoc []) = .error .missingTagField ∧
      extractTag .invalid = .error .malformedResponse :=
  ⟨(C2_extract_error_taxonomy .invalid [("tag_name", .vstr "v2.0.0")] "v2.0.0" "m").2.1 rfl,
    (C2_extract_error_taxonomy .invalid [("message", .vstr "Not Found")] "s" "Not Found").2.2.1
      (fun t h => Option.noConfusion h) rfl,
    (C2_extract_error_taxonomy .invalid [] "s" "m").2.2.2
      (fun t h => Option.noConfusion h) (fun t h => Option.noConfusion h),
    (C2_extract_error_taxonomy .invalid [] "s" "m").1 (fun fs h => QJsonDocument.noConfusion h)⟩

/-- C1: when every pipeline step succeeds, `check_github_update` returns
`hasUpdate = (remote > local)` under the SemVer ordering and
`latestVersion` equal to the raw extracted tag string (not a
re-rendering of the parsed structure). -/
theorem C1_check_result (fetch : String → Except String QByteArray)
    (fromJson : QByteArray → QJsonDocument) (repoUrl localVersion api tag : String)
    (data : QByteArray) (lv rv : SemVer)
    (h1 : toGithubApiUrl repoUrl = .ok api)
    (h2 : fetch api = .ok data)
    (h3 : extractTag (fromJson data) = .ok tag)
    (h4 : SemVer.parse localVersion = .ok lv)
    (h5 : SemVer.parse tag = .ok rv) :
    check_github_update fetch fromJson repoUrl localVersion =
      .ok { hasUpdate := SemVer.gtB rv lv, latestVersion := tag } := by
  unfold check_github_update
  rw [h1]
  simp only
  rw [h2]
  simp only
  rw [h3]
  simp only
  rw [h4]
  simp only
  rw [h5]

/-- Witness for `C1_check_result` at the specification's end-to-end
example: remote tag "v3.1.0" against local "3.0.0". -/
theorem C1_check_result_witness :
    check_github_update (fun _ => .ok [])
        (fun _ => .objectDoc [("tag_name", .vstr "v3.1.0")])
        "https://github.com/o/r" "3.0.0" =
      .ok { hasUpdate := true, latestVersion := "v3.1.0" } :=
  C1_check_result (fun _ => .ok []) (fun _ => .objectDoc [("tag_name", .vstr "v3.1.0")])
    "https://github.com/o/r" "3.0.0" "https://api.github.com/repos/o/r/releases/latest"
    "v3.1.0" [] ⟨3, 0, 0⟩ ⟨3, 1, 0⟩ (by rfl) rfl (by rfl) (by rfl) (by rfl)

/-- C7: the pipeline is strictly sequential and each failure is
propagated unchanged: a URL-resolution error is the result for every
fetch and every JSON parser (no network call, no parsing); a transport
failure yields exactly TransportError(msg) for every JSON parser; a
local-version parse failure is the result even though the remote tag
was never parsed; a parse failure always carries exactly its own input;
and an extraction failure is propagated unchanged. -/
theorem C7_check_sequencing (fetch : String → Except String QByteArray)
    (fromJson : QByteArray → QJsonDocument)
    (repoUrl localVersion api tag msg : String) (data : QByteArray) (e : CheckError) :
    (toGithubApiUrl repoUrl = .error e →
      check_github_update fetch fromJson repoUrl localVersion = .error e) ∧
    (toGithubApiUrl repoUrl = .ok api → fetch api = .error msg →
      check_github_update fetch fromJson repoUrl localVersion =
        .error (.transportError msg)) ∧
    (toGithubApiUrl repoUrl = .ok api → fetch api = .ok data →
      extractTag (fromJson data) = .ok tag →
      SemVer.parse localVersion = .error e →
      check_github_update fetch fromJson repoUrl localVersion = .error e) ∧
    (SemVer.parse localVersion = .error e → e = .invalidVersionFormat localVersion) ∧
    (toGithubApiUrl repoUrl = .ok api → fetch api = .ok data →
      extractTag (fromJson data) = .error e →
      check_github_update fetch fromJson repoUrl localVersion = .error e) := by
  refine ⟨?_, ?_, ?_, ?_, ?_⟩
  · intro h1
    unfold check_github_update
    rw [h1]
  · intro h1 h2
    unfold check_github_update
    rw [h1]
    simp only
    rw [h2]
  · intro h1 h2 h3 h4
    unfold check_github_update
    rw [h1]
    simp only
    rw [h2]
    simp only
    rw [h3]
    simp only
    rw [h4]
  · intro h1
    unfold SemVer.parse at h1
    cases hf : findVer localVersion.data with
    | none =>
      rw [hf] at h1
      injection h1 with h1e
      exact h1e.symm
    | some tr =>
      rw [hf] at h1
      obtain ⟨d1, d2, od3⟩ := tr
      simp at h1
  · intro h1 h2 h3
    unfold check_github_update
    rw [h1]
    simp only
    rw [h2]
    simp only
    rw [h3]

/-- Witness for `C7_check_sequencing`: the specification's
transport-fault stub makes `check` fail with exactly that
TransportError. -/
theorem C7_check_sequencing_witness :
    check_github_update (fun _ => .error "connection refused") (fun _ => .invalid)
        "https://github.com/o/r" "1.0.0" = .error (.transportError "connection refused") :=
  (C7_check_sequencing (fun _ => .error "connection refused") (fun _ => .invalid)
      "https://github.com/o/r" "1.0.0" "https://api.github.com/repos/o/r/releases/latest"
      "t" "connection refused" [] .malformedResponse).2.1 (by rfl) rfl



lemma dot_not_digit : ('.' : Char).isDigit = false := by decide

lemma digit_ne_v {c : Char} (h : c.isDigit = true) : c ≠ 'v' := by
  intro hv
  subst hv
  exact absurd h (by decide)

lemma takeDigits_spec (l : List Char) :
    l = (takeDigits l).1 ++ (takeDigits l).2 ∧ ∀ c ∈ (takeDigits l).1, c.isDigit = true := by
  induction l with
  | nil => simp [takeDigits]
  | cons c cs ih =>
    by_cases hc : c.isDigit = true
    · simp only [takeDigits, if_pos hc]
      constructor
      · simpa using ih.1
      · intro x hx
        simp only [List.mem_cons] at hx
        rcases hx with rfl | hx
        · exact hc
        · exact ih.2 x hx
    · simp [takeDigits, hc]

lemma takeDigits_append {d : List Char} (hd : ∀ c ∈ d, c.isDigit = true)
    {x : Char} (hx : x.isDigit = false) (X : List Char) :
    takeDigits (d ++ x :: X) = (d, x :: X) := by
  induction d with
  | nil => simp [takeDigits, hx]
  | cons c cs ih =>
    have hc : c.isDigit = true := hd c (by simp)
    have ihh := ih (fun c2 hm => hd c2 (by simp [hm]))
    simp [takeDigits, hc, ihh]

lemma takeDigits_all {d : List Char} (hd : ∀ c ∈ d, c.isDigit = true) :
    takeDigits d = (d, []) := by
  induction d with
  | nil => rfl
  | cons c cs ih =>
    have hc : c.isDigit = true := hd c (by simp)
    have ihh := ih (fun c2 hm => hd c2 (by simp [hm]))
    simp [takeDigits, hc, ihh]

lemma takeDigits_fst_ne_nil {c : Char} (hc : c.isDigit = true) (cs : List Char) :
    (takeDigits (c :: cs)).1 ≠ [] := by
  simp [takeDigits, hc]

/-- Spec-side version pattern (written from the specification's words):
an optional literal `v`, digits, `.`, digits, optionally `.` digits. -/
def verPat (mid : List Char) : Prop :=
  ∃ v d1 d2 opt, mid = v ++ (d1 ++ ('.' :: (d2 ++ opt))) ∧
    (v = [] ∨ v = ['v']) ∧ d1 ≠ [] ∧ (∀ c ∈ d1, c.isDigit = true) ∧
    d2 ≠ [] ∧ (∀ c ∈ d2, c.isDigit = true) ∧
    (opt = [] ∨ ∃ d3, opt = '.' :: d3 ∧ d3 ≠ [] ∧ ∀ c ∈ d3, c.isDigit = true)

/-- Spec-side occurrence: the version pattern matches somewhere inside
the list (unanchored). -/
def verOccurs (l : List Char) : Prop :=
  ∃ pre mid post, l = pre ++ (mid ++ post) ∧ verPat mid

lemma matchCore_isSome {d1 : List Char} (h1 : d1 ≠ []) (hd1 : ∀ c ∈ d1, c.isDigit = true)
    {c : Char} (hc : c.isDigit = true) (rest : List Char) :
    (matchCore (d1 ++ ('.' :: c :: rest))).isSome = true := by
  unfold matchCore
  rw [takeDigits_append hd1 dot_not_digit (c :: rest)]
  have hne := takeDigits_fst_ne_nil hc rest
  cases hq : takeDigits (c :: rest) with
  | mk q1 q2 =>
    rw [hq] at hne
    rcases q2 with - | ⟨c2, r2⟩
    · simp [h1, hq, hne]
    · by_cases hc2 : c2 = '.'
      · subst hc2
        simp only [hq, h1]
        split
        next hab => exact hab.elim
        next => split <;> simp
      · simp [h1, hq, hne, hc2]

lemma matchCore_shape_isSome {d1 d2 : List Char} (opt post : List Char)
    (h1 : d1 ≠ []) (hd1 : ∀ c ∈ d1, c.isDigit = true)
    (h2 : d2 ≠ []) (hd2 : ∀ c ∈ d2, c.isDigit = true) :
    (matchCore ((d1 ++ ('.' :: (d2 ++ opt))) ++ post)).isSome = true := by
  cases d2 with
  | nil => exact absurd rfl h2
  | cons c2 d2x =>
    have hc2 : c2.isDigit = true := hd2 c2 (by simp)
    have hmain := matchCore_isSome h1 hd1 hc2 (d2x ++ (opt ++ post))
    have hsh : (d1 ++ ('.' :: (c2 :: d2x ++ opt))) ++ post =
        d1 ++ ('.' :: c2 :: (d2x ++ (opt ++ post))) := by
      simp [List.append_assoc]
    rw [hsh]
    exact hmain

lemma findVer_cons_isSome (c : Char) (cs : List Char)
    (h : (findVer cs).isSome = true) : (findVer (c :: cs)).isSome = true := by
  unfold findVer
  cases hm : (if c = 'v' then matchCore cs else matchCore (c :: cs)) with
  | some r => simp
  | none => simpa using h

lemma findVer_head_isSome {c : Char} {cs : List Char} (hc : c ≠ 'v')
    (h : (matchCore (c :: cs)).isSome = true) : (findVer (c :: cs)).isSome = true := by
  unfold findVer
  rw [if_neg hc]
  cases hm : matchCore (c :: cs) with
  | some r => simp
  | none => rw [hm] at h; simp at h

lemma findVer_v_isSome {cs : List Char}
    (h : (matchCore cs).isSome = true) : (findVer ('v' :: cs)).isSome = true := by
  unfold findVer
  rw [if_pos rfl]
  cases hm : matchCore cs with
  | some r => simp
  | none => rw [hm] at h; simp at h

lemma matchCore_some_pat {cs d1 d2 : List Char} {od3 : Option (List Char)}
    (h : matchCore cs = some (d1, d2, od3)) :
    ∃ opt post, cs = (d1 ++ ('.' :: (d2 ++ opt))) ++ post ∧
      d1 ≠ [] ∧ (∀ c ∈ d1, c.isDigit = true) ∧
      d2 ≠ [] ∧ (∀ c ∈ d2, c.isDigit = true) ∧
      (opt = [] ∨ ∃ d3, opt = '.' :: d3 ∧ d3 ≠ [] ∧ ∀ c ∈ d3, c.isDigit = true) := by
  unfold matchCore at h
  by_cases hp1 : (takeDigits cs).1 = []
  · rw [if_pos hp1] at h; simp at h
  · rw [if_neg hp1] at h
    have hcs := takeDigits_spec cs
    split at h
    next r2 heq =>
      simp only at h
      by_cases hp2 : (takeDigits r2).1 = []
      · rw [if_pos hp2] at h; simp at h
      · rw [if_neg hp2] at h
        have hr2 := takeDigits_spec r2
        have hc1 : cs = (takeDigits cs).1 ++ ('.' :: r2) := by
          rw [heq] at hcs
          exact hcs.1
        split at h
        next r4 heq2 =>
          have hr4 := takeDigits_spec r4
          have hc2 : r2 = (takeDigits r2).1 ++ ('.' :: r4) := by
            rw [heq2] at hr2
            exact hr2.1
          by_cases hp3 : (takeDigits r4).1 = []
          · rw [if_pos hp3] at h
            injection h with h5
            injection h5 with e1 h6
            injection h6 with e2 e3
            subst e1
            subst e2
            refine ⟨[], '.' :: r4, ?_, hp1, hcs.2, hp2, hr2.2, Or.inl rfl⟩
            conv_lhs => rw [hc1]
            conv_lhs => rw [hc2]
            simp
          · rw [if_neg hp3] at h
            injection h with h5
            injection h5 with e1 h6
            injection h6 with e2 e3
            subst e1
            subst e2
            refine ⟨'.' :: (takeDigits r4).1, (takeDigits r4).2, ?_, hp1, hcs.2, hp2,
              hr2.2, Or.inr ⟨(takeDigits r4).1, rfl, hp3, hr4.2⟩⟩
            conv_lhs => rw [hc1]
            conv_lhs => rw [hc2]
            conv_lhs => rw [hr4.1]
            simp
        next hne =>
          injection h with h5
          injection h5 with e1 h6
          injection h6 with e2 e3
          subst e1
          subst e2
          refine ⟨[], (takeDigits r2).2, ?_, hp1, hcs.2, hp2, hr2.2, Or.inl rfl⟩
          conv_lhs => rw [hc1]
          conv_lhs => rw [hr2.1]
          simp
    next hne =>
      simp at h


lemma findVer_some_occurs {l : List Char} (h : (findVer l).isSome = true) :
    verOccurs l := by
  induction l with
  | nil => simp [findVer] at h
  | cons d ds ih =>
    unfold findVer at h
    by_cases hd : d = 'v'
    · rw [if_pos hd] at h
      cases hm : matchCore ds with
      | some r =>
        obtain ⟨d1, d2, od3⟩ := r
        obtain ⟨opt, post, hds, h1, hd1, h2, hd2, hopt⟩ := matchCore_some_pat hm
        refine ⟨[], ['v'] ++ (d1 ++ ('.' :: (d2 ++ opt))), post, ?_,
          ['v'], d1, d2, opt, rfl, Or.inr rfl, h1, hd1, h2, hd2, hopt⟩
        subst hd
        rw [hds]
        simp
      | none =>
        rw [hm] at h
        simp only at h
        obtain ⟨pre, mid, post, he, hpat⟩ := ih h
        exact ⟨d :: pre, mid, post, by simp [he], hpat⟩
    · rw [if_neg hd] at h
      cases hm : matchCore (d :: ds) with
      | some r =>
        obtain ⟨d1, d2, od3⟩ := r
        obtain ⟨opt, post, hds, h1, hd1, h2, hd2, hopt⟩ := matchCore_some_pat hm
        refine ⟨[], d1 ++ ('.' :: (d2 ++ opt)), post, ?_,
          [], d1, d2, opt, by simp, Or.inl rfl, h1, hd1, h2, hd2, hopt⟩
        rw [hds]
        simp
      | none =>
        rw [hm] at h
        simp only at h
        obtain ⟨pre, mid, post, he, hpat⟩ := ih h
        exact ⟨d :: pre, mid, post, by simp [he], hpat⟩

lemma occurs_findVer {l : List Char} (h : verOccurs l) : (findVer l).isSome = true := by
  obtain ⟨pre, mid, post, he, hpat⟩ := h
  subst he
  induction pre with
  | nil =>
    simp only [List.nil_append]
    obtain ⟨v, d1, d2, opt, hmid, hv, h1, hd1, h2, hd2, hopt⟩ := hpat
    subst hmid
    rcases hv with hv | hv
    · subst hv
      simp only [List.nil_append]
      cases hd1c : d1 with
      | nil => exact absurd hd1c h1
      | cons c1 d1x =>
        subst hd1c
        have hc1 : c1.isDigit = true := hd1 c1 (by simp)
        have hshape := matchCore_shape_isSome opt post h1 hd1 h2 hd2
        simp only [List.cons_append, List.append_assoc] at hshape ⊢
        exact findVer_head_isSome (digit_ne_v hc1) hshape
    · subst hv
      have hshape := matchCore_shape_isSome opt post h1 hd1 h2 hd2
      have hre : (['v'] ++ (d1 ++ ('.' :: (d2 ++ opt)))) ++ post =
          'v' :: ((d1 ++ ('.' :: (d2 ++ opt))) ++ post) := by simp
      rw [hre]
      exact findVer_v_isSome hshape
  | cons c pre2 ih =>
    simp only [List.cons_append]
    exact findVer_cons_isSome c _ ih

/-- C4: `SemVer.parse` succeeds exactly when the version pattern — an
optional literal `v`, digits, `.`, digits, optionally `.` digits —
occurs anywhere inside the input (unanchored, surrounding text
ignored); and on the specification's examples it returns {1,2,0},
{1,2,3}, {2,0,0}, and fails with InvalidVersionFormat carrying the
original input. -/
theorem C4_parse_unanchored_pattern (s : String) :
    ((∃ sv, SemVer.parse s = .ok sv) ↔ verOccurs s.data) ∧
      SemVer.parse "v1.2" = .ok ⟨1, 2, 0⟩ ∧
      SemVer.parse "1.2.3-beta" = .ok ⟨1, 2, 3⟩ ∧
      SemVer.parse "release-2.0.0-rc1" = .ok ⟨2, 0, 0⟩ ∧
      SemVer.parse "not-a-version" = .error (.invalidVersionFormat "not-a-version") := by
  refine ⟨?_, by rfl, by rfl, by rfl, by rfl⟩
  constructor
  · rintro ⟨sv, hsv⟩
    unfold SemVer.parse at hsv
    cases hf : findVer s.data with
    | none => rw [hf] at hsv; simp at hsv
    | some tr => exact findVer_some_occurs (by simp [hf])
  · intro hocc
    have hs := occurs_findVer hocc
    unfold SemVer.parse
    cases hf : findVer s.data with
    | none => rw [hf] at hs; simp at hs
    | some tr =>
      obtain ⟨d1, d2, od3⟩ := tr
      exact ⟨_, rfl⟩

lemma findVer_cons_eq {c : Char} {cs : List Char} (hc : c ≠ 'v')
    {r : List Char × List Char × Option (List Char)}
    (h : matchCore (c :: cs) = some r) : findVer (c :: cs) = some r := by
  unfold findVer
  rw [if_neg hc, h]

lemma matchCore_full {d1 d2 d3 : List Char}
    (h1 : d1 ≠ []) (hd1 : ∀ c ∈ d1, c.isDigit = true)
    (h2 : d2 ≠ []) (hd2 : ∀ c ∈ d2, c.isDigit = true)
    (h3 : d3 ≠ []) (hd3 : ∀ c ∈ d3, c.isDigit = true) :
    matchCore (d1 ++ ('.' :: (d2 ++ ('.' :: d3)))) = some (d1, d2, some d3) := by
  unfold matchCore
  rw [takeDigits_append hd1 dot_not_digit (d2 ++ ('.' :: d3))]
  simp only
  rw [if_neg h1]
  rw [takeDigits_append hd2 dot_not_digit d3]
  simp only
  rw [if_neg h2]
  rw [takeDigits_all hd3]
  simp only
  rw [if_neg h3]

/-- C8 counterexample: the components are parsed with `QString::toInt`
into a C++ `int`; a component exceeding INT_MAX fails the conversion,
which Qt defines to return 0, so parsing "2147483648.0.0" yields
{0,0,0}, not {2147483648,0,0}. -/
theorem C8_counterexample :
    SemVer.parse "2147483648.0.0" = .ok ⟨0, 0, 0⟩ ∧
      (⟨0, 0, 0⟩ : SemVer) ≠ ⟨2147483648, 0, 0⟩ := by
  exact ⟨by rfl, by decide⟩

/-- C8 (amended): for all non-negative integers a, b, c that fit in a
C++ `int` (at most 2147483647), parsing any base-10 rendering
"<a>.<b>.<c>" (leading zeros permitted) succeeds and yields exactly
the components {a, b, c}. -/
theorem C8_parse_render_roundtrip (d1 d2 d3 : List Char)
    (h1 : d1 ≠ []) (hd1 : ∀ c ∈ d1, c.isDigit = true)
    (h2 : d2 ≠ []) (hd2 : ∀ c ∈ d2, c.isDigit = true)
    (h3 : d3 ≠ []) (hd3 : ∀ c ∈ d3, c.isDigit = true)
    (hb1 : digitsVal d1 ≤ 2147483647) (hb2 : digitsVal d2 ≤ 2147483647)
    (hb3 : digitsVal d3 ≤ 2147483647) :
    SemVer.parse (String.mk (d1 ++ ('.' :: (d2 ++ ('.' :: d3))))) =
      .ok ⟨(digitsVal d1 : Int), (digitsVal d2 : Int), (digitsVal d3 : Int)⟩ := by
  have hfull := matchCore_full h1 hd1 h2 hd2 h3 hd3
  cases hd1c : d1 with
  | nil => exact absurd hd1c h1
  | cons c1 d1x =>
    subst hd1c
    have hc1 : c1.isDigit = true := hd1 c1 (by simp)
    have hfind : findVer ((c1 :: d1x) ++ ('.' :: (d2 ++ ('.' :: d3)))) =
        some (c1 :: d1x, d2, some d3) := by
      have := findVer_cons_eq (digit_ne_v hc1) (by simpa using hfull)
      simpa using this
    unfold SemVer.parse
    simp only [String.data]
    rw [hfind]
    simp only [qToInt, if_pos hb1, if_pos hb2, if_pos hb3]

/-- Witness for `C8_parse_render_roundtrip` at the rendering "01.2.3"
(leading zero permitted): parse yields {1, 2, 3}. -/
theorem C8_parse_render_roundtrip_witness :
    SemVer.parse (String.mk ("01".data ++ ('.' :: ("2".data ++ ('.' :: "3".data))))) =
      .ok ⟨(digitsVal "01".data : Int), (digitsVal "2".data : Int),
        (digitsVal "3".data : Int)⟩ :=
  C8_parse_render_roundtrip "01".data "2".data "3".data (by decide) (by decide)
    (by decide) (by decide) (by decide) (by decide) (by decide) (by decide) (by decide)


end Qtgh
